import Mathlib

/-!
Shallow embedding of the transfer and benchmark core of the `surf` HTTP
client (`src/core.rs`), together with theorems checking the natural-language
specification against it.  Machine integers (`u64`, `usize`, `u16`) are
modelled as `Nat`; the values involved never overflow in the claimed
scenarios and Rust's checked arithmetic panics rather than wraps on the
subtraction paths that matter.
-/

set_option maxHeartbeats 1000000
set_option maxRecDepth 200000

namespace Surf

/-- `PARALLEL_DOWNLOAD_THRESHOLD` from `core.rs` (10 MB). -/
def PARALLEL_DOWNLOAD_THRESHOLD : Nat := 10000000

/-- `chunk_size = remaining / parallel` where `remaining = total_size - downloaded`
(`download_parallel`, core.rs line 397/408; integer division on `u64`). -/
def chunkSize (totalSize downloaded parallel : Nat) : Nat :=
  (totalSize - downloaded) / parallel

/-- Start of worker `i`'s byte range:
`start = downloaded + i as u64 * chunk_size` (core.rs line 426). -/
def segStart (downloaded chunk : Nat) (i : Nat) : Nat := downloaded + i * chunk

/-- Inclusive end of worker `i`'s byte range (core.rs lines 427-431):
the last worker's end is forced to `total_size - 1`, every other worker ends
at `downloaded + (i + 1) * chunk_size - 1`. -/
def segEnd (totalSize downloaded chunk parallel : Nat) (i : Nat) : Nat :=
  if i = parallel - 1 then totalSize - 1 else downloaded + (i + 1) * chunk - 1

/-- Ascending sort of the latency samples, as done by
`sorted_times.sort_unstable()` in `BenchmarkStats::print_results`
(core.rs line 660). -/
def sortTimes (times : List Nat) : List Nat := times.insertionSort (· ≤ ·)

/-- Number of binary digits of `n`, computed with `n` itself as structural
fuel (so that the kernel can evaluate it on literals). -/
def bitLenAux : Nat → Nat → Nat
  | 0, _ => 0
  | fuel + 1, n => if n = 0 then 0 else bitLenAux fuel (n / 2) + 1

def bitLen (n : Nat) : Nat := bitLenAux n n

/-- A nonnegative dyadic rational `num / 2 ^ exp`: the value space of IEEE-754
binary64 (`f64`) in its normal range.  The exponent is unbounded here, which is
faithful for this program: every quantity involved is far from both the
subnormal threshold and overflow. -/
structure Dyadic where
  num : Nat
  exp : Nat
  deriving DecidableEq

/-- The rational value of a dyadic. -/
def dyadicVal (d : Dyadic) : ℚ := (d.num : ℚ) / 2 ^ d.exp

/-- Round the integer `n` to a multiple of `2 ^ r`, to nearest, ties to even,
returned as the multiplier: IEEE-754 significand rounding. -/
def roundAtBit (n r : Nat) : Nat :=
  if r = 0 then n
  else if 2 * (n % 2 ^ r) < 2 ^ r then n / 2 ^ r
  else if 2 * (n % 2 ^ r) > 2 ^ r then n / 2 ^ r + 1
  else if n / 2 ^ r % 2 = 0 then n / 2 ^ r else n / 2 ^ r + 1

/-- Round a nonnegative dyadic to 53 significant bits — the binary64 rounding
(round to nearest, ties to even) of every `f64` operation result. -/
def round53 (d : Dyadic) : Dyadic :=
  if bitLen d.num ≤ 53 then d
  else if bitLen d.num - 53 ≤ d.exp then
    ⟨roundAtBit d.num (bitLen d.num - 53), d.exp - (bitLen d.num - 53)⟩
  else ⟨roundAtBit d.num (bitLen d.num - 53) * 2 ^ (bitLen d.num - 53 - d.exp), 0⟩

/-- `f64` multiplication: the exact product, rounded to binary64. -/
def mulD (a b : Dyadic) : Dyadic := round53 ⟨a.num * b.num, a.exp + b.exp⟩

/-- `len as f64` (`usize` to `f64`): exact below `2 ^ 53`, rounded to nearest
above. -/
def natToD (n : Nat) : Dyadic := round53 ⟨n, 0⟩

/-- `as usize` on a nonnegative `f64`: truncation toward zero. -/
def toUsize (d : Dyadic) : Nat := d.num / 2 ^ d.exp

/-- The `f64` written `0.5` — exactly representable. -/
def fl05 : Dyadic := ⟨1, 1⟩

/-- The `f64` written `0.95`: the binary64 value nearest 19/20
(`fl095_closest` certifies it). -/
def fl095 : Dyadic := ⟨4278419646001971, 52⟩

/-- The `f64` written `0.99`: the binary64 value nearest 99/100
(`fl099_closest` certifies it). -/
def fl099 : Dyadic := ⟨4458563631096791, 52⟩

/-- The binary64 value nearest 1/3 (`fl13_closest` certifies it): a
representative percentile argument exposing the f64 rounding of the index. -/
def fl13 : Dyadic := ⟨6004799503160661, 54⟩

/-- `percentile` (core.rs lines 701-708).  Rust computes the index as
`(sorted_data.len() as f64 * percentile) as usize` and clamps with
`min(index, len - 1)`; the cast of the length, the multiplication (rounded to
nearest, ties to even) and the truncating cast back are modelled exactly on
dyadic rationals. -/
def percentile (sorted_data : List Nat) (p : Dyadic) : Nat :=
  if sorted_data.isEmpty then 0
  else sorted_data.getD
    (min (toUsize (mulD (natToD sorted_data.length) p)) (sorted_data.length - 1)) 0

/-- The three percentiles reported by `BenchmarkStats::print_results`
(core.rs lines 659-672): sort ascending, then p50 / p95 / p99 with the `f64`
literals 0.5, 0.95, 0.99. -/
def printPercentiles (times : List Nat) : Nat × Nat × Nat :=
  (percentile (sortTimes times) fl05,
   percentile (sortTimes times) fl095,
   percentile (sortTimes times) fl099)

/-- The spec's formula, stated in its own words: the element of the
ascending-sorted list at index `min(⌊len * p⌋, len - 1)`, with an exact
(real-number) product and floor. -/
def specPercentile (times : List Nat) (p : ℚ) : Nat :=
  (sortTimes times).getD
    (min (Nat.floor ((times.length : ℚ) * p)) (times.length - 1)) 0

/-- The two download strategies (`download_file` branches into
`download_parallel` or `download_single`). -/
inductive Strategy where
  | singleStream
  | parallelSegmented
  deriving DecidableEq

/-- The `use_parallel` condition of `download_file` (core.rs lines 191-195). -/
def useParallel (supportsRange : Bool) (totalSize parallel downloaded : Nat) : Bool :=
  supportsRange && decide (0 < totalSize) && decide (1 < parallel)
    && decide (PARALLEL_DOWNLOAD_THRESHOLD < totalSize) && decide (downloaded < totalSize)

/-- The strategy actually executed: `download_file` picks the parallel path via
`use_parallel` (core.rs lines 197-215), and `download_parallel` itself degrades
to `download_single` when `chunk_size == 0` (core.rs lines 408-411). -/
def effectiveStrategy (supportsRange : Bool) (totalSize parallel downloaded : Nat) : Strategy :=
  if useParallel supportsRange totalSize parallel downloaded then
    if chunkSize totalSize downloaded parallel = 0 then .singleStream
    else .parallelSegmented
  else .singleStream

/-- One streamed body chunk, paired with the time (in seconds) the downloader
waited for it since the previous chunk.  `tokio::time::timeout(idle_duration,
stream.next())` fires once the wait reaches the idle duration, so a chunk whose
`delay` is `≥ idleTimeout` is never received. -/
structure Chunk where
  delay : Nat
  data : List Nat
  deriving DecidableEq

/-- An HTTP response as consumed by the downloaders: a status code and the
streamed body chunks.  Mid-stream transport receive errors are not modelled:
every listed chunk arrives intact after its delay. -/
structure HttpResponse where
  status : Nat
  chunks : List Chunk
  deriving DecidableEq

/-- The typed errors of the transfer engine: `TimeoutError::IdleTimeout`
(core.rs 34-35) and the `anyhow!` status errors of `download_single`
(core.rs 300-304, "Failed to download: status") and of a parallel worker
(core.rs 452-454, "Server doesn't support range requests, status"). -/
inductive DlError where
  | httpStatus (status : Nat)
  | rangeUnsupported (status : Nat)
  | idleTimeout (secs : Nat)
  deriving DecidableEq

/-- `StatusCode::is_success()` from the http crate: exactly the 2xx statuses.
`download_single` accepts exactly these (core.rs line 300). -/
def isSuccessStatus (s : Nat) : Bool := decide (200 ≤ s) && decide (s < 300)

/-- The chunk loop of `download_single` (core.rs 316-358): wait for the next
chunk under the idle watchdog; if the wait reaches the idle timeout, abort with
`IdleTimeout`, keeping the bytes already written; otherwise append the chunk to
the file and loop.  Returns the outcome and the bytes the loop wrote. -/
def streamLoop (idleTimeout : Nat) : List Chunk → Except DlError Unit × List Nat
  | [] => (.ok (), [])
  | ch :: rest =>
    if idleTimeout ≤ ch.delay then (.error (.idleTimeout idleTimeout), [])
    else
      ((streamLoop idleTimeout rest).1, ch.data ++ (streamLoop idleTimeout rest).2)

/-- Result of one `download_single` invocation: the outcome, the bytes written
to the destination during this invocation, whether the GET was issued, and
whether a `Range` header was attached to it. -/
structure SingleResult where
  outcome : Except DlError Unit
  written : List Nat
  sentRequest : Bool
  sentRange : Bool

/-- `download_single` (core.rs 249-381), as a pure function of the response the
server would return to its GET.  In source order: the destination is opened for
append (no bytes written by that); if `downloaded >= total_size && total_size >
0` the function short-circuits with success before any request is built
(core.rs 273-277); otherwise a GET is issued, with `Range: bytes=<downloaded>-`
iff `downloaded > 0` (core.rs 279-283); a response status failing
`is_success()` is an error (core.rs 300-304); otherwise the body is streamed by
the chunk loop. -/
def download_single (downloaded totalSize idleTimeout : Nat)
    (resp : HttpResponse) : SingleResult :=
  if totalSize ≤ downloaded ∧ 0 < totalSize then
    ⟨.ok (), [], false, false⟩
  else if isSuccessStatus resp.status = false then
    ⟨.error (.httpStatus resp.status), [], true, decide (0 < downloaded)⟩
  else
    ⟨(streamLoop idleTimeout resp.chunks).1, (streamLoop idleTimeout resp.chunks).2,
      true, decide (0 < downloaded)⟩

/-- The chunk loop of one parallel worker (core.rs 461-495): the same idle
watchdog, but each chunk is written at the worker's running file position
(`write_at`), which starts at the segment start and advances by the chunk
length.  Returns the outcome and the positioned writes performed. -/
def workerLoop (idleTimeout pos : Nat) :
    List Chunk → Except DlError Unit × List (Nat × List Nat)
  | [] => (.ok (), [])
  | ch :: rest =>
    if idleTimeout ≤ ch.delay then (.error (.idleTimeout idleTimeout), [])
    else
      ((workerLoop idleTimeout (pos + ch.data.length) rest).1,
        (pos, ch.data) :: (workerLoop idleTimeout (pos + ch.data.length) rest).2)

/-- The positioned writes a worker performs while chunks keep arriving in time:
each chunk goes at the running position, starting from `pos`. -/
def positionedWrites (pos : Nat) : List Chunk → List (Nat × List Nat)
  | [] => []
  | ch :: rest => (pos, ch.data) :: positionedWrites (pos + ch.data.length) rest

/-- One parallel worker (core.rs 439-498): sends `Range: bytes=<start>-<end>`,
requires status 206 — any other status is an error for this worker — and then
streams with positioned writes starting at `start`. -/
def workerRun (idleTimeout start : Nat) (resp : HttpResponse) :
    Except DlError Unit × List (Nat × List Nat) :=
  if resp.status = 206 then workerLoop idleTimeout start resp.chunks
  else (.error (.rangeUnsupported resp.status), [])

/-- The join loop of `download_parallel` (core.rs 503-519): worker results are
awaited in index order and the first failure is returned as the failure of the
whole transfer; otherwise the transfer succeeds. -/
def joinTasks : List (Except DlError Unit) → Except DlError Unit
  | [] => .ok ()
  | .ok _ :: rest => joinTasks rest
  | .error e :: _ => .error e

/-- `BenchmarkStats` (core.rs 621-626); the status-code histogram is modelled
as an association list. -/
structure BenchStats where
  responseTimes : List Nat
  statusCodes : List (Nat × Nat)
  successful : Nat
  failed : Nat
  deriving DecidableEq

/-- `*self.status_codes.entry(code).or_insert(0) += 1` (core.rs 643). -/
def bumpStatus : List (Nat × Nat) → Nat → List (Nat × Nat)
  | [], code => [(code, 1)]
  | (c, k) :: rest, code =>
    if c = code then (c, k + 1) :: rest else (c, k) :: bumpStatus rest code

/-- `BenchmarkStats::record_request` (core.rs 638-654): push the latency; when
a status code is present, bump its histogram entry and count the sample
successful iff `(200..400).contains(&code)`, otherwise failed; when no status
code is present (transport error, core.rs 581-584) count the sample failed. -/
def record_request (s : BenchStats) (ms : Nat) (statusCode : Option Nat) :
    BenchStats :=
  match statusCode with
  | some code =>
    if 200 ≤ code ∧ code < 400 then
      { s with responseTimes := s.responseTimes ++ [ms],
               statusCodes := bumpStatus s.statusCodes code,
               successful := s.successful + 1 }
    else
      { s with responseTimes := s.responseTimes ++ [ms],
               statusCodes := bumpStatus s.statusCodes code,
               failed := s.failed + 1 }
  | none =>
    { s with responseTimes := s.responseTimes ++ [ms], failed := s.failed + 1 }

/-- The colon character, by code point. -/
def colonChar : Char := Char.ofNat 58

/-- Valid characters of an HTTP header name (`HeaderName::from_str` of the
http crate): ASCII letters, digits, and the token symbols
(code points 33, 35-39, 42, 43, 45, 46, 94-96, 124, 126). -/
def isHeaderNameChar (c : Char) : Bool :=
  (65 ≤ c.toNat && c.toNat ≤ 90) || (97 ≤ c.toNat && c.toNat ≤ 122)
    || (48 ≤ c.toNat && c.toNat ≤ 57)
    || [33, 35, 36, 37, 38, 39, 42, 43, 45, 46, 94, 95, 96, 124, 126].contains c.toNat

/-- Valid characters of an HTTP header value (`HeaderValue::from_str`): every
code point from 32 up except DEL (127), plus horizontal tab (9). -/
def isHeaderValueChar (c : Char) : Bool :=
  (32 ≤ c.toNat && c.toNat ≠ 127) || c.toNat = 9

def validHeaderName (s : String) : Bool :=
  !s.isEmpty && s.toList.all isHeaderNameChar

def validHeaderValue (s : String) : Bool :=
  s.toList.all isHeaderValueChar

/-- Rust `char::is_whitespace` — the Unicode White_Space property, by code
point: U+0009-U+000D, U+0020, U+0085, U+00A0, U+1680, U+2000-U+200A, U+2028,
U+2029, U+202F, U+205F, U+3000. -/
def isRustWhitespace (c : Char) : Bool :=
  (9 ≤ c.toNat && c.toNat ≤ 13) || c.toNat = 32 || c.toNat = 133
    || c.toNat = 160 || c.toNat = 5760 || (8192 ≤ c.toNat && c.toNat ≤ 8202)
    || c.toNat = 8232 || c.toNat = 8233 || c.toNat = 8239 || c.toNat = 8287
    || c.toNat = 12288

/-- `str::trim`, on the character list: drop Unicode whitespace from both
ends. -/
def trimChars (l : List Char) : List Char :=
  ((l.dropWhile isRustWhitespace).reverse.dropWhile isRustWhitespace).reverse

def strTrim (s : String) : String := ⟨trimChars s.toList⟩

/-- ASCII lowercasing of one character, by code point. -/
def toLowerChar (c : Char) : Char :=
  if 65 ≤ c.toNat ∧ c.toNat ≤ 90 then Char.ofNat (c.toNat + 32) else c

/-- The ASCII-lowercase normalization `HeaderName::from_str` applies to the
parsed name: header-name equality (hence `HeaderMap` overwriting) is
case-insensitive in the program. -/
def lowerAscii (s : String) : String := ⟨s.toList.map toLowerChar⟩

/-- `str::split_once(':')`: split at the first colon, `none` when there is no
colon. -/
def splitOnceColon (s : String) : Option (String × String) :=
  if s.toList.contains colonChar then
    some (⟨s.toList.takeWhile (fun c => c ≠ colonChar)⟩,
          ⟨(s.toList.dropWhile (fun c => c ≠ colonChar)).tail⟩)
  else none

/-- `parse_header` (core.rs 40-52): split at the first colon (missing colon is
an error), trim both parts, and require them to encode as a `HeaderName` and a
`HeaderValue`; the name is normalized to ASCII lowercase by `HeaderName`
parsing; `none` models the `Err` cases. -/
def parse_header (s : String) : Option (String × String) :=
  match splitOnceColon s with
  | none => none
  | some (k, v) =>
    if validHeaderName (strTrim k) && validHeaderValue (strTrim v) then
      some (lowerAscii (strTrim k), strTrim v)
    else none

/-- `HeaderMap::insert`: replace the value when the name is already present,
otherwise append the pair. -/
def insertHeader (m : List (String × String)) (k v : String) :
    List (String × String) :=
  if ∃ p ∈ m, p.1 = k then
    m.map (fun p => if p.1 = k then (k, v) else p)
  else m ++ [(k, v)]

/-- The header fold of `build_client` from an arbitrary already-built map:
each header string is parsed; failures are skipped with a warning; successes
are inserted. -/
def buildHeaderMapFrom (m : List (String × String)) (headers : List String) :
    List (String × String) :=
  headers.foldl
    (fun acc h =>
      match parse_header h with
      | some kv => insertHeader acc kv.1 kv.2
      | none => acc)
    m

/-- The header-installation phase of `build_client` (core.rs 109-121), starting
from the empty `HeaderMap`.  The fold is total — a header parse failure can
never fail the build. -/
def buildHeaderMap (headers : List String) : List (String × String) :=
  buildHeaderMapFrom [] headers

/-- `File::create(output)` (core.rs 403) truncates: whatever the destination
held before is discarded. -/
def fileCreate (_oldContent : List Nat) : List Nat := []

/-- `file.set_len(total_size)` (core.rs 404): pre-size the file, zero-filling
any extension. -/
def setLen (content : List Nat) (n : Nat) : List Nat :=
  if content.length ≤ n then content ++ List.replicate (n - content.length) 0
  else content.take n

/-- The destination file after `download_parallel` has prepared it
(core.rs 403-406), as a function of its prior content. -/
def prepareOutput (oldContent : List Nat) (totalSize : Nat) : List Nat :=
  setLen (fileCreate oldContent) totalSize

/-- One positioned write (`FileExt::write_at`), for a write staying within the
current file size. -/
def writeAt (content : List Nat) (pos : Nat) (data : List Nat) : List Nat :=
  content.take pos ++ data ++ content.drop (pos + data.length)

/-- Apply a list of positioned writes in order. -/
def applyWrites (content : List Nat) (ws : List (Nat × List Nat)) : List Nat :=
  ws.foldl (fun c w => writeAt c w.1 w.2) content

lemma bitLenAux_le_iff : ∀ fuel n k : Nat, n ≤ fuel →
    (bitLenAux fuel n ≤ k ↔ n < 2 ^ k) := by
  intro fuel
  induction fuel with
  | zero =>
    intro n k h
    have hn : n = 0 := by omega
    subst hn
    simp [bitLenAux]
  | succ fuel ih =>
    intro n k h
    by_cases hn : n = 0
    · subst hn
      simp [bitLenAux]
    · rw [bitLenAux, if_neg hn]
      cases k with
      | zero =>
        simp
        omega
      | succ k2 =>
        have h2 : n / 2 ≤ fuel := by omega
        have h3 := ih (n / 2) k2 h2
        rw [Nat.succ_le_succ_iff, h3, pow_succ]
        omega

lemma bitLen_le_iff (n k : Nat) : bitLen n ≤ k ↔ n < 2 ^ k :=
  bitLenAux_le_iff n n k (Nat.le_refl n)

lemma fl05_exact : dyadicVal fl05 = 1 / 2 := by
  norm_num [dyadicVal, fl05]

lemma fl095_closest :
    bitLen fl095.num ≤ 53 ∧ |dyadicVal fl095 - 95 / 100| ≤ 1 / 2 ^ 54 := by
  refine ⟨by decide, ?_⟩
  rw [abs_le]
  constructor <;> norm_num [dyadicVal, fl095]

lemma fl099_closest :
    bitLen fl099.num ≤ 53 ∧ |dyadicVal fl099 - 99 / 100| ≤ 1 / 2 ^ 54 := by
  refine ⟨by decide, ?_⟩
  rw [abs_le]
  constructor <;> norm_num [dyadicVal, fl099]

lemma fl13_closest :
    bitLen fl13.num ≤ 53 ∧ |dyadicVal fl13 - 1 / 3| ≤ 1 / 2 ^ 55 := by
  refine ⟨by decide, ?_⟩
  rw [abs_le]
  constructor <;> norm_num [dyadicVal, fl13]

lemma f64_agree_95 : ∀ len : Nat, len < 1000 →
    toUsize (mulD (natToD len) fl095) = len * 95 / 100 := by
  decide

lemma f64_agree_99 : ∀ len : Nat, len < 1000 →
    toUsize (mulD (natToD len) fl099) = len * 99 / 100 := by
  decide

lemma floor_mul_half (L : Nat) : Nat.floor ((L : ℚ) * 2⁻¹) = L / 2 := by
  have h : (L : ℚ) * 2⁻¹ = ((L : ℕ) : ℚ) / ((2 : ℕ) : ℚ) := by
    push_cast
    ring
  rw [h, Nat.floor_div_nat, Nat.floor_natCast]

lemma floor_mul_95 (L : Nat) :
    Nat.floor ((L : ℚ) * (95 / 100)) = L * 95 / 100 := by
  have h : (L : ℚ) * (95 / 100) = ((L * 95 : ℕ) : ℚ) / ((100 : ℕ) : ℚ) := by
    push_cast
    ring
  rw [h, Nat.floor_div_nat, Nat.floor_natCast]

lemma floor_mul_99 (L : Nat) :
    Nat.floor ((L : ℚ) * (99 / 100)) = L * 99 / 100 := by
  have h : (L : ℚ) * (99 / 100) = ((L * 99 : ℕ) : ℚ) / ((100 : ℕ) : ℚ) := by
    push_cast
    ring
  rw [h, Nat.floor_div_nat, Nat.floor_natCast]

lemma parallel_mul_chunk_le (t d n : Nat) : n * chunkSize t d n ≤ t - d := by
  rw [chunkSize, Nat.mul_comm]
  exact Nat.div_mul_le_self (t - d) n

lemma segEnd_last (t d c n : Nat) : segEnd t d c n (n - 1) = t - 1 := by
  simp [segEnd]

lemma joinTasks_ok_iff (results : List (Except DlError Unit)) :
    joinTasks results = .ok () ↔ ∀ r ∈ results, r = .ok () := by
  induction results with
  | nil => simp [joinTasks]
  | cons r rest ih =>
    cases r with
    | ok u => simpa [joinTasks] using ih
    | error e => simp [joinTasks]

lemma joinTasks_first_error (pre post : List (Except DlError Unit)) (e : DlError)
    (h : ∀ r ∈ pre, r = .ok ()) :
    joinTasks (pre ++ .error e :: post) = .error e := by
  induction pre with
  | nil => simp [joinTasks]
  | cons r rest ih =>
    have hr : r = .ok () := h r (by simp)
    subst hr
    simp only [List.cons_append, joinTasks]
    exact ih fun x hx => h x (by simp [hx])

lemma streamLoop_timeout (idle : Nat) (pre : List Chunk) (ch : Chunk)
    (post : List Chunk) (hpre : ∀ c ∈ pre, c.delay < idle)
    (hch : idle ≤ ch.delay) :
    streamLoop idle (pre ++ ch :: post) =
      (.error (.idleTimeout idle), (pre.map Chunk.data).flatten) := by
  induction pre with
  | nil => simp [streamLoop, if_pos hch]
  | cons c rest ih =>
    have hc : c.delay < idle := hpre c (by simp)
    have hrest := ih fun x hx => hpre x (by simp [hx])
    simp only [List.cons_append, streamLoop, if_neg (by omega : ¬idle ≤ c.delay),
      List.append_eq]
    rw [hrest]
    simp

lemma streamLoop_ok (idle : Nat) (chunks : List Chunk)
    (h : ∀ c ∈ chunks, c.delay < idle) :
    streamLoop idle chunks = (.ok (), (chunks.map Chunk.data).flatten) := by
  induction chunks with
  | nil => simp [streamLoop]
  | cons c rest ih =>
    have hc : c.delay < idle := h c (by simp)
    have hrest := ih fun x hx => h x (by simp [hx])
    simp only [streamLoop, if_neg (by omega : ¬idle ≤ c.delay)]
    rw [hrest]
    simp

lemma workerLoop_timeout (idle : Nat) (pre : List Chunk) (ch : Chunk)
    (post : List Chunk) (hpre : ∀ c ∈ pre, c.delay < idle)
    (hch : idle ≤ ch.delay) :
    ∀ pos, workerLoop idle pos (pre ++ ch :: post) =
      (.error (.idleTimeout idle), positionedWrites pos pre) := by
  induction pre with
  | nil => intro pos; simp [workerLoop, if_pos hch, positionedWrites]
  | cons c rest ih =>
    intro pos
    have hc : c.delay < idle := hpre c (by simp)
    have hrest := ih (fun x hx => hpre x (by simp [hx])) (pos + c.data.length)
    simp only [List.cons_append, workerLoop, if_neg (by omega : ¬idle ≤ c.delay),
      List.append_eq]
    rw [hrest]
    simp [positionedWrites]

lemma workerLoop_ok (idle : Nat) (chunks : List Chunk)
    (h : ∀ c ∈ chunks, c.delay < idle) :
    ∀ pos, workerLoop idle pos chunks = (.ok (), positionedWrites pos chunks) := by
  induction chunks with
  | nil => intro pos; simp [workerLoop, positionedWrites]
  | cons c rest ih =>
    intro pos
    have hc : c.delay < idle := h c (by simp)
    have hrest := ih (fun x hx => h x (by simp [hx])) (pos + c.data.length)
    simp only [workerLoop, if_neg (by omega : ¬idle ≤ c.delay)]
    rw [hrest]
    simp [positionedWrites]

lemma workerLoop_pos_le (idle : Nat) (chunks : List Chunk) :
    ∀ pos, ∀ w ∈ (workerLoop idle pos chunks).2, pos ≤ w.1 := by
  induction chunks with
  | nil => intro pos w hw; simp [workerLoop] at hw
  | cons c rest ih =>
    intro pos w hw
    by_cases hc : idle ≤ c.delay
    · simp [workerLoop, if_pos hc] at hw
    · simp only [workerLoop, if_neg hc] at hw
      rcases List.mem_cons.mp hw with h1 | h2
      · subst h1; exact Nat.le_refl _
      · have := ih (pos + c.data.length) w h2
        omega

lemma insertHeader_mem_self (m : List (String × String)) (k v : String) :
    (k, v) ∈ insertHeader m k v := by
  rw [insertHeader]
  by_cases h : ∃ p ∈ m, p.1 = k
  · rw [if_pos h]
    rcases h with ⟨p, hp, hpk⟩
    exact List.mem_map.mpr ⟨p, hp, by simp [hpk]⟩
  · rw [if_neg h]
    simp

lemma insertHeader_mem (m : List (String × String)) (k v : String)
    (x : String × String) (hx : x ∈ insertHeader m k v) :
    x ∈ m ∨ x = (k, v) := by
  rw [insertHeader] at hx
  by_cases h : ∃ p ∈ m, p.1 = k
  · rw [if_pos h] at hx
    rcases List.mem_map.mp hx with ⟨p, hp, hpe⟩
    by_cases hpk : p.1 = k
    · right; rw [if_pos hpk] at hpe; exact hpe.symm
    · left; rw [if_neg hpk] at hpe; exact hpe ▸ hp
  · rw [if_neg h] at hx
    rcases List.mem_append.mp hx with h1 | h2
    · left; exact h1
    · right; simpa using h2

lemma insertHeader_preserve_key (m : List (String × String)) (k w k2 v2 : String)
    (h : (k, w) ∈ m) : ∃ w2, (k, w2) ∈ insertHeader m k2 v2 := by
  by_cases hk : k = k2
  · subst hk
    exact ⟨v2, insertHeader_mem_self m k v2⟩
  · rw [insertHeader]
    by_cases h2 : ∃ p ∈ m, p.1 = k2
    · rw [if_pos h2]
      exact ⟨w, List.mem_map.mpr ⟨(k, w), h, by simp [hk]⟩⟩
    · rw [if_neg h2]
      exact ⟨w, List.mem_append.mpr (Or.inl h)⟩

lemma buildHeaderMapFrom_skip (m : List (String × String)) (pre post : List String)
    (x : String) (hx : parse_header x = none) :
    buildHeaderMapFrom m (pre ++ x :: post) = buildHeaderMapFrom m (pre ++ post) := by
  simp [buildHeaderMapFrom, List.foldl_append, hx]

lemma buildHeaderMapFrom_mem (hs : List String) :
    ∀ (m : List (String × String)) (x : String × String),
      x ∈ buildHeaderMapFrom m hs →
      x ∈ m ∨ ∃ h ∈ hs, parse_header h = some x := by
  induction hs with
  | nil =>
    intro m x hx
    left
    simpa [buildHeaderMapFrom] using hx
  | cons h rest ih =>
    intro m x hx
    have hx2 : x ∈ buildHeaderMapFrom
        (match parse_header h with
          | some kv => insertHeader m kv.1 kv.2
          | none => m) rest := hx
    cases hp : parse_header h with
    | none =>
      rw [hp] at hx2
      rcases ih _ x hx2 with h1 | ⟨y, hy, hyp⟩
      · left; exact h1
      · right; exact ⟨y, List.mem_cons_of_mem _ hy, hyp⟩
    | some kv =>
      rw [hp] at hx2
      rcases ih _ x hx2 with h1 | ⟨y, hy, hyp⟩
      · rcases insertHeader_mem m kv.1 kv.2 x h1 with h2 | h2
        · left; exact h2
        · right
          refine ⟨h, List.mem_cons_self _ _, ?_⟩
          rw [hp, h2]
      · right; exact ⟨y, List.mem_cons_of_mem _ hy, hyp⟩

lemma buildHeaderMapFrom_key (hs : List String) :
    ∀ (m : List (String × String)) (k : String),
      ((∃ w, (k, w) ∈ m) ∨ ∃ h ∈ hs, ∃ v, parse_header h = some (k, v)) →
      ∃ w, (k, w) ∈ buildHeaderMapFrom m hs := by
  induction hs with
  | nil =>
    intro m k hk
    rcases hk with ⟨w, hw⟩ | ⟨h, hh, _⟩
    · exact ⟨w, by simpa [buildHeaderMapFrom] using hw⟩
    · exact absurd hh (List.not_mem_nil h)
  | cons h rest ih =>
    intro m k hk
    have hstep : buildHeaderMapFrom m (h :: rest) =
        buildHeaderMapFrom
          (match parse_header h with
            | some kv => insertHeader m kv.1 kv.2
            | none => m) rest := rfl
    rw [hstep]
    cases hp : parse_header h with
    | none =>
      refine ih _ k ?_
      rcases hk with ⟨w, hw⟩ | ⟨h2, hh2, v, hpv⟩
      · exact Or.inl ⟨w, hw⟩
      · rcases List.mem_cons.mp hh2 with he | hm
        · rw [he, hp] at hpv
          exact absurd hpv (by simp)
        · exact Or.inr ⟨h2, hm, v, hpv⟩
    | some kv =>
      refine ih _ k ?_
      rcases hk with ⟨w, hw⟩ | ⟨h2, hh2, v, hpv⟩
      · exact Or.inl (insertHeader_preserve_key m k w kv.1 kv.2 hw)
      · rcases List.mem_cons.mp hh2 with he | hm
        · rw [he, hp] at hpv
          have hkv : kv = (k, v) := Option.some_injective _ hpv
          left
          refine ⟨kv.2, ?_⟩
          have := insertHeader_mem_self m kv.1 kv.2
          rw [hkv] at this ⊢
          exact this
        · exact Or.inr ⟨h2, hm, v, hpv⟩

lemma writeAt_length (content : List Nat) (pos : Nat) (data : List Nat)
    (h : pos + data.length ≤ content.length) :
    (writeAt content pos data).length = content.length := by
  simp [writeAt]
  omega

lemma writeAt_getD_of_lt (content : List Nat) (pos : Nat) (data : List Nat)
    (i z : Nat) (hi : i < pos) (hp : pos ≤ content.length) :
    (writeAt content pos data).getD i z = content.getD i z := by
  have htake : i < (content.take pos).length := by
    simp [List.length_take]
    omega
  rw [writeAt, List.getD_eq_getElem?_getD, List.append_assoc,
    List.getElem?_append_left htake]
  simp [List.getElem?_take, hi, List.getD_eq_getElem?_getD]

lemma applyWrites_prefix_getD (d : Nat) :
    ∀ (ws : List (Nat × List Nat)) (content : List Nat),
      (∀ w ∈ ws, d ≤ w.1 ∧ w.1 + w.2.length ≤ content.length) →
      ∀ i, i < d →
        (applyWrites content ws).getD i 1 = content.getD i 1 := by
  intro ws
  induction ws with
  | nil =>
    intro content h i hi
    simp [applyWrites]
  | cons w rest ih =>
    intro content h i hi
    have hw := h w (List.mem_cons_self _ _)
    have hlen : (writeAt content w.1 w.2).length = content.length :=
      writeAt_length content w.1 w.2 hw.2
    have hrest : ∀ x ∈ rest, d ≤ x.1 ∧ x.1 + x.2.length ≤
        (writeAt content w.1 w.2).length := by
      intro x hx
      rw [hlen]
      exact h x (List.mem_cons_of_mem _ hx)
    calc (applyWrites content (w :: rest)).getD i 1
        = (applyWrites (writeAt content w.1 w.2) rest).getD i 1 := rfl
      _ = (writeAt content w.1 w.2).getD i 1 := ih _ hrest i hi
      _ = content.getD i 1 :=
          writeAt_getD_of_lt content w.1 w.2 i 1 (by omega) (by omega)

/-- C1: Parallel segment partitioning.  With `chunk = (total_size - downloaded) / N`
(integer division), worker `i < N` gets byte range
`[downloaded + i * chunk, downloaded + (i+1) * chunk - 1]`, the last worker's end
being forced to `total_size - 1`.  For every `downloaded < total_size`, `N ≥ 1`
and `chunk > 0`: consecutive ranges are contiguous, ranges are pairwise
non-overlapping (ordered), the last segment's end is exactly `total_size - 1`,
and the union of the ranges is exactly `[downloaded, total_size - 1]`. -/
theorem c1_segment_partition (t d n c : Nat)
    (hd : d < t) (hn : 1 ≤ n) (hc : c = chunkSize t d n) (hpos : 0 < c) :
    (∀ i, i + 1 < n → segEnd t d c n i + 1 = segStart d c (i + 1)) ∧
    (segEnd t d c n (n - 1) = t - 1) ∧
    (∀ i j, i < j → j < n → segEnd t d c n i < segStart d c j) ∧
    (∀ b, (d ≤ b ∧ b ≤ t - 1) ↔
      ∃ i, i < n ∧ segStart d c i ≤ b ∧ b ≤ segEnd t d c n i) := by
  have hmul : n * c ≤ t - d := hc ▸ parallel_mul_chunk_le t d n
  refine ⟨?_, segEnd_last t d c n, ?_, ?_⟩
  · intro i hi
    have hne : i ≠ n - 1 := by omega
    simp only [segEnd, segStart, if_neg hne]
    have h1 : c ≤ (i + 1) * c := Nat.le_mul_of_pos_left c (by omega)
    omega
  · intro i j hij hjn
    have hine : i ≠ n - 1 := by omega
    simp only [segEnd, segStart, if_neg hine]
    have h1 : (i + 1) * c ≤ j * c := Nat.mul_le_mul_right c (by omega)
    have h2 : c ≤ (i + 1) * c := Nat.le_mul_of_pos_left c (by omega)
    omega
  · intro b
    constructor
    · rintro ⟨hdb, hbt⟩
      by_cases hbig : n - 1 ≤ (b - d) / c
      · refine ⟨n - 1, by omega, ?_, ?_⟩
        · have h1 : (n - 1) * c ≤ b - d :=
            (Nat.le_div_iff_mul_le hpos).mp hbig
          simp only [segStart]
          omega
        · rw [segEnd_last]; exact hbt
      · refine ⟨(b - d) / c, by omega, ?_, ?_⟩
        · have h1 : (b - d) / c * c ≤ b - d := Nat.div_mul_le_self (b - d) c
          simp only [segStart]
          omega
        · have hne : (b - d) / c ≠ n - 1 := by omega
          simp only [segEnd, if_neg hne]
          have h1 : c * ((b - d) / c) + (b - d) % c = b - d :=
            Nat.div_add_mod (b - d) c
          have h2 : (b - d) % c < c := Nat.mod_lt _ hpos
          have h3 : ((b - d) / c + 1) * c = (b - d) / c * c + c := by ring
          have h4 : c * ((b - d) / c) = (b - d) / c * c := Nat.mul_comm _ _
          omega
    · rintro ⟨i, hin, hsb, hbe⟩
      constructor
      · simp only [segStart] at hsb
        omega
      · by_cases hlast : i = n - 1
        · rw [hlast, segEnd_last] at hbe
          exact hbe
        · simp only [segEnd, if_neg hlast] at hbe
          have h1 : (i + 1) * c ≤ n * c := Nat.mul_le_mul_right c (by omega)
          omega

theorem c1_segment_partition_witness :
    (3 < 20 ∧ 1 ≤ 4 ∧ 4 = chunkSize 20 3 4 ∧ 0 < 4) ∧
    ((∀ i, i + 1 < 4 → segEnd 20 3 4 4 i + 1 = segStart 3 4 (i + 1)) ∧
    (segEnd 20 3 4 4 (4 - 1) = 20 - 1) ∧
    (∀ i j, i < j → j < 4 → segEnd 20 3 4 4 i < segStart 3 4 j) ∧
    (∀ b, (3 ≤ b ∧ b ≤ 20 - 1) ↔
      ∃ i, i < 4 ∧ segStart 3 4 i ≤ b ∧ b ≤ segEnd 20 3 4 4 i)) :=
  ⟨⟨by decide, by decide, by decide, by decide⟩,
    c1_segment_partition 20 3 4 4 (by decide) (by decide) (by decide) (by decide)⟩

/-- C2 counterexample: `percentile` computes its index in `f64`.  At the
binary64 value nearest 1/3 and the three sorted samples [10, 20, 30], the f64
product `3.0 * p` rounds (ties to even) up to exactly 1.0, so the program
reports index 1, value 20 — while the claimed exact order-statistic formula
`min(⌊len * p⌋, len - 1)` gives index 0, value 10: the for-every-p claim is
false of the program. -/
theorem c2_counterexample :
    percentile (sortTimes [10, 20, 30]) fl13 = 20 ∧
    specPercentile [10, 20, 30] (dyadicVal fl13) = 10 := by
  constructor
  · decide
  · have h : Nat.floor ((3 : ℚ) * dyadicVal fl13) = 0 := by
      rw [Nat.floor_eq_iff (by norm_num [dyadicVal, fl13])]
      norm_num [dyadicVal, fl13]
    have hs : sortTimes [10, 20, 30] = [10, 20, 30] := by decide
    simp [specPercentile, hs, h]

/-- C2 (amended): the percentile index is computed in `f64` —
`trunc(rnd(len as f64 * p))` clamped to `len - 1`, with `rnd` rounding to
nearest, ties to even.  For p50 the literal 0.5 is exactly representable and
the index is the exact order statistic `⌊len / 2⌋` for every list shorter than
`2 ^ 53`; for p95 and p99 the f64 index agrees with the exact order-statistic
indices `⌊len * 95 / 100⌋` and `⌊len * 99 / 100⌋` for every list shorter than
1000; and for the latencies [10, 20, 30, 40, 50], p50 yields 30 and p95 and
p99 both yield 50.  For an arbitrary percentile argument the exact-floor
description can be off by one index, as the counterexample shows. -/
theorem c2_percentile_f64 :
    (∀ times : List Nat, times ≠ [] → times.length < 2 ^ 53 →
      percentile (sortTimes times) fl05 = specPercentile times (1 / 2)) ∧
    (∀ times : List Nat, times ≠ [] → times.length < 1000 →
      percentile (sortTimes times) fl095 = specPercentile times (95 / 100) ∧
      percentile (sortTimes times) fl099 = specPercentile times (99 / 100)) ∧
    printPercentiles [10, 20, 30, 40, 50] = (30, 50, 50) := by
  refine ⟨?_, ?_, ?_⟩
  · intro times hne hbound
    have hlen : (sortTimes times).length = times.length :=
      List.length_insertionSort _ times
    have hne2 : sortTimes times ≠ [] := by
      intro hnil
      rw [hnil] at hlen
      exact hne (List.length_eq_zero.mp hlen.symm)
    have hbit : bitLen times.length ≤ 53 := (bitLen_le_iff _ _).mpr hbound
    have h1 : natToD times.length = ⟨times.length, 0⟩ := by
      simp [natToD, round53, hbit]
    have h2 : mulD (natToD times.length) fl05 = ⟨times.length, 1⟩ := by
      rw [h1]
      simp [mulD, fl05, round53, hbit]
    have h3 : toUsize ⟨times.length, 1⟩ = times.length / 2 := by
      simp [toUsize]
    simp [percentile, specPercentile, hne2, hlen, h2, h3, floor_mul_half]
  · intro times hne hbound
    have hlen : (sortTimes times).length = times.length :=
      List.length_insertionSort _ times
    have hne2 : sortTimes times ≠ [] := by
      intro hnil
      rw [hnil] at hlen
      exact hne (List.length_eq_zero.mp hlen.symm)
    constructor
    · have h95 := f64_agree_95 times.length hbound
      simp [percentile, specPercentile, hne2, hlen, h95, floor_mul_95]
    · have h99 := f64_agree_99 times.length hbound
      simp [percentile, specPercentile, hne2, hlen, h99, floor_mul_99]
  · decide

theorem c2_percentile_f64_witness :
    (([10, 20, 30, 40, 50] : List Nat) ≠ [] ∧
      ([10, 20, 30, 40, 50] : List Nat).length < 1000) ∧
    percentile (sortTimes [10, 20, 30, 40, 50]) fl095 =
      specPercentile [10, 20, 30, 40, 50] (95 / 100) :=
  ⟨⟨by decide, by decide⟩,
    (c2_percentile_f64.2.1 [10, 20, 30, 40, 50] (by decide) (by decide)).1⟩

/-- C3: Strategy selection.  The parallel segmented downloader is entered iff
range support is confirmed, `total_size > 0`, requested parallelism `N > 1`,
`total_size` exceeds the 10 MB threshold, and `resume_offset < total_size`;
in every other case (including unknown size `total_size = 0`) the single-stream
downloader is used; and when the chunk size `(total_size - resume_offset) / N`
is zero the parallel path degrades to single-stream. -/
theorem c3_strategy_selection :
    (∀ sr t n d, useParallel sr t n d = true ↔
      (sr = true ∧ 0 < t ∧ 1 < n ∧ PARALLEL_DOWNLOAD_THRESHOLD < t ∧ d < t)) ∧
    (∀ sr t n d, useParallel sr t n d = false →
      effectiveStrategy sr t n d = .singleStream) ∧
    (∀ sr t n d, useParallel sr t n d = true → chunkSize t d n = 0 →
      effectiveStrategy sr t n d = .singleStream) ∧
    (∀ sr t n d, useParallel sr t n d = true → chunkSize t d n ≠ 0 →
      effectiveStrategy sr t n d = .parallelSegmented) := by
  refine ⟨?_, ?_, ?_, ?_⟩
  · intro sr t n d
    simp [useParallel, and_assoc]
  · intro sr t n d h
    simp [effectiveStrategy, h]
  · intro sr t n d h hc
    simp [effectiveStrategy, h, hc]
  · intro sr t n d h hc
    simp [effectiveStrategy, h, hc]

theorem c3_strategy_selection_witness :
    (useParallel true 10000002 2 10000001 = true ∧
      chunkSize 10000002 10000001 2 = 0 ∧
      effectiveStrategy true 10000002 2 10000001 = .singleStream) ∧
    (useParallel true 20000000 4 0 = true ∧
      chunkSize 20000000 0 4 ≠ 0 ∧
      effectiveStrategy true 20000000 4 0 = .parallelSegmented) :=
  ⟨⟨by decide, by decide,
      c3_strategy_selection.2.2.1 true 10000002 2 10000001 (by decide) (by decide)⟩,
   ⟨by decide, by decide,
      c3_strategy_selection.2.2.2 true 20000000 4 0 (by decide) (by decide)⟩⟩

/-- C4: Parallel worker status requirement.  Every parallel worker requires a
206 response to its range request: any other status makes that worker return an
error, the join loop fails the entire transfer with the first worker error, and
the transfer succeeds only when every worker succeeds — no partial-success
result and no mid-flight fallback. -/
theorem c4_worker_requires_206 :
    (∀ idleTimeout start resp, HttpResponse.status resp ≠ 206 →
      workerRun idleTimeout start resp =
        (.error (.rangeUnsupported resp.status), [])) ∧
    (∀ pre post e, (∀ r ∈ pre, r = .ok ()) →
      joinTasks (pre ++ .error e :: post) = .error e) ∧
    (∀ results, joinTasks results = .ok () ↔ ∀ r ∈ results, r = .ok ()) := by
  refine ⟨?_, ?_, joinTasks_ok_iff⟩
  · intro idleTimeout start resp h
    simp [workerRun, h]
  · intro pre post e h
    exact joinTasks_first_error pre post e h

theorem c4_worker_requires_206_witness :
    ((200 : Nat) ≠ 206) ∧
    workerRun 5 0 ⟨200, []⟩ = (.error (.rangeUnsupported 200), []) :=
  ⟨by decide, c4_worker_requires_206.1 5 0 ⟨200, []⟩ (by decide)⟩

/-- C5 counterexample: resume offset 1 (so a Range header was sent) and
response status 204, which is neither 200 nor 206 — yet `download_single` does
not fail with a protocol error: its check is `is_success()`, which accepts any
2xx status, so it proceeds to stream the body and returns success. -/
theorem c5_counterexample :
    ((0 : Nat) < 1 ∧ (204 : Nat) ≠ 200 ∧ (204 : Nat) ≠ 206) ∧
    (download_single 1 10 5 ⟨204, []⟩).sentRange = true ∧
    (download_single 1 10 5 ⟨204, []⟩).outcome = .ok () :=
  ⟨⟨by decide, by decide, by decide⟩, rfl, rfl⟩

/-- C5 (amended): when `download_single` actually issues its GET (no resume
short-circuit), it fails with the status error exactly for response statuses
outside [200,300) — whether or not a Range header was sent — and proceeds to
stream the body for every 2xx status, which includes 200 and 206 but also the
other 2xx codes. -/
theorem c5_single_status_check (downloaded totalSize idleTimeout : Nat)
    (resp : HttpResponse) (h : ¬(totalSize ≤ downloaded ∧ 0 < totalSize)) :
    (¬(200 ≤ resp.status ∧ resp.status < 300) →
      download_single downloaded totalSize idleTimeout resp =
        ⟨.error (.httpStatus resp.status), [], true, decide (0 < downloaded)⟩) ∧
    ((200 ≤ resp.status ∧ resp.status < 300) →
      (download_single downloaded totalSize idleTimeout resp).outcome =
          (streamLoop idleTimeout resp.chunks).1 ∧
      (download_single downloaded totalSize idleTimeout resp).written =
          (streamLoop idleTimeout resp.chunks).2) := by
  constructor
  · intro hs
    have hb : isSuccessStatus resp.status = false := by
      simp [isSuccessStatus]
      omega
    simp [download_single, h, hb]
  · intro hs
    have hb : isSuccessStatus resp.status = true := by
      simp [isSuccessStatus]
      omega
    simp [download_single, h, hb]

theorem c5_single_status_check_witness :
    (¬((10 : Nat) ≤ 0 ∧ (0 : Nat) < 10) ∧ ¬(200 ≤ 404 ∧ (404 : Nat) < 300)) ∧
    download_single 0 10 5 ⟨404, []⟩ =
      ⟨.error (.httpStatus 404), [], true, false⟩ :=
  ⟨⟨by decide, by decide⟩,
    (c5_single_status_check 0 10 5 ⟨404, []⟩ (by decide)).1 (by decide)⟩

/-- C6: Resume short-circuit.  For every `resume_offset ≥ total_size` with
`total_size > 0`, `download_single` returns success immediately: zero bytes are
written and no GET request is issued. -/
theorem c6_resume_short_circuit (downloaded totalSize idleTimeout : Nat)
    (resp : HttpResponse) (h1 : 0 < totalSize) (h2 : totalSize ≤ downloaded) :
    download_single downloaded totalSize idleTimeout resp =
      ⟨.ok (), [], false, false⟩ := by
  simp [download_single, h1, h2]

theorem c6_resume_short_circuit_witness :
    ((0 : Nat) < 10 ∧ (10 : Nat) ≤ 12) ∧
    download_single 12 10 5 ⟨200, [⟨1, [9]⟩]⟩ = ⟨.ok (), [], false, false⟩ :=
  ⟨⟨by decide, by decide⟩,
    c6_resume_short_circuit 12 10 5 ⟨200, [⟨1, [9]⟩]⟩ (by decide) (by decide)⟩

/-- C7: Idle-timeout liveness.  In the single-stream chunk loop and in each
parallel worker's chunk loop, a wait that reaches the idle timeout aborts with
`IdleTimeout` no matter how many chunks (hence how much total time) came
before, and the bytes already written stay exactly the previously streamed
chunks — not rolled back; a worker timing out makes the whole parallel join
fail with the same `IdleTimeout` error; conversely, when every chunk arrives
within the idle timeout no timeout abort occurs, however long the transfer. -/
theorem c7_idle_timeout_liveness :
    (∀ idleTimeout pre ch post, (∀ c ∈ pre, Chunk.delay c < idleTimeout) →
      idleTimeout ≤ Chunk.delay ch →
      streamLoop idleTimeout (pre ++ ch :: post) =
        (.error (.idleTimeout idleTimeout), (pre.map Chunk.data).flatten)) ∧
    (∀ idleTimeout chunks, (∀ c ∈ chunks, Chunk.delay c < idleTimeout) →
      streamLoop idleTimeout chunks = (.ok (), (chunks.map Chunk.data).flatten)) ∧
    (∀ idleTimeout start pre ch post, (∀ c ∈ pre, Chunk.delay c < idleTimeout) →
      idleTimeout ≤ Chunk.delay ch →
      workerRun idleTimeout start ⟨206, pre ++ ch :: post⟩ =
        (.error (.idleTimeout idleTimeout), positionedWrites start pre)) ∧
    (∀ pre post idleTimeout, (∀ r ∈ pre, r = .ok ()) →
      joinTasks (pre ++ .error (.idleTimeout idleTimeout) :: post) =
        .error (.idleTimeout idleTimeout)) := by
  refine ⟨streamLoop_timeout, streamLoop_ok, ?_, ?_⟩
  · intro idleTimeout start pre ch post hpre hch
    simp only [workerRun, if_pos rfl]
    exact workerLoop_timeout idleTimeout pre ch post hpre hch start
  · intro pre post idleTimeout h
    exact joinTasks_first_error pre post _ h

theorem c7_idle_timeout_liveness_witness :
    ((∀ c ∈ [Chunk.mk 1 [42]], Chunk.delay c < 5) ∧ (5 : Nat) ≤ 6) ∧
    streamLoop 5 [⟨1, [42]⟩, ⟨6, [7]⟩] = (.error (.idleTimeout 5), [42]) :=
  ⟨⟨by decide, by decide⟩,
    c7_idle_timeout_liveness.1 5 [⟨1, [42]⟩] ⟨6, [7]⟩ [] (by decide) (by decide)⟩

/-- C8: Benchmark sample classification.  Every recorded sample increments
exactly one of the two counters: the successful counter iff the sample carries
a status code in [200,400), the failed counter in every other case (status
outside that interval, or a transport error carrying no status); the latency is
always recorded. -/
theorem c8_sample_classification (s : BenchStats) (ms : Nat) (st : Option Nat) :
    ((record_request s ms st).successful + (record_request s ms st).failed =
      s.successful + s.failed + 1) ∧
    ((record_request s ms st).successful = s.successful + 1 ↔
      ∃ code, st = some code ∧ 200 ≤ code ∧ code < 400) ∧
    ((record_request s ms st).failed = s.failed + 1 ↔
      ¬∃ code, st = some code ∧ 200 ≤ code ∧ code < 400) ∧
    (record_request s ms st).responseTimes = s.responseTimes ++ [ms] := by
  cases st with
  | none =>
    refine ⟨by simp [record_request]; omega, ?_, ?_, by simp [record_request]⟩
    · simp [record_request]
    · simp [record_request]
  | some code =>
    by_cases hc : 200 ≤ code ∧ code < 400
    · refine ⟨by simp [record_request, hc]; omega, ?_, ?_,
        by simp [record_request, hc]⟩
      · simp [record_request, hc]
      · simp [record_request, hc]
    · refine ⟨by simp [record_request, hc]; omega, ?_, ?_,
        by simp [record_request, hc]⟩
      · simp [record_request, hc]
      · simp [record_request, hc]

/-- C9 counterexample: in the header list ["A:1", "a:2"] both entries parse
(the name is normalized to lowercase "a" by `HeaderName` parsing), yet only
("a", "2") ends up installed — `HeaderMap::insert` replaces the earlier value
for the case-insensitively equal name — so it is not the case that for every
header list exactly the parseable headers are installed. -/
theorem c9_counterexample :
    parse_header "A:1" = some ("a", "1") ∧
    parse_header "a:2" = some ("a", "2") ∧
    buildHeaderMap ["A:1", "a:2"] = [("a", "2")] ∧
    ("a", "1") ∉ buildHeaderMap ["A:1", "a:2"] := by
  refine ⟨?_, ?_, ?_, ?_⟩ <;> decide

/-- C9 (amended): a malformed header string (missing colon, or a name/value
that fails parsing — all header name/value encoding happens at parse time) is
skipped with a warning and never makes the build fail — removing it from the
list leaves the installed map unchanged; every installed header pair comes
from a parseable entry; and every parseable entry's name (normalized to ASCII
lowercase by `HeaderName` parsing) is installed with some value — but a later
entry with the case-insensitively same name overwrites the earlier value, so
with duplicate names not every parseable pair is installed. -/
theorem c9_header_handling :
    (∀ pre x post, parse_header x = none →
      buildHeaderMap (pre ++ x :: post) = buildHeaderMap (pre ++ post)) ∧
    (∀ hs x, x ∈ buildHeaderMap hs → ∃ h ∈ hs, parse_header h = some x) ∧
    (∀ hs h k v, h ∈ hs → parse_header h = some (k, v) →
      ∃ w, (k, w) ∈ buildHeaderMap hs) := by
  refine ⟨?_, ?_, ?_⟩
  · intro pre x post hx
    exact buildHeaderMapFrom_skip [] pre post x hx
  · intro hs x hx
    rcases buildHeaderMapFrom_mem hs [] x hx with h1 | h2
    · exact absurd h1 (List.not_mem_nil x)
    · exact h2
  · intro hs h k v hh hp
    exact buildHeaderMapFrom_key hs [] k (Or.inr ⟨h, hh, v, hp⟩)

theorem c9_header_handling_witness :
    (parse_header "nocolon" = none) ∧
    buildHeaderMap ["nocolon", "a:1"] = buildHeaderMap ["a:1"] :=
  ⟨by decide, c9_header_handling.1 [] "nocolon" ["a:1"] (by decide)⟩

/-- C10: Parallel resume destroys the existing prefix.  `download_parallel`
recreates the destination with `File::create` — after `set_len(total_size)`
the prepared file is all zero bytes whatever its prior partial content was —
and its workers only write at positions at or after their segment start, which
is at or after `resume_offset`; consequently, for in-range writes, every byte
below `resume_offset` of the final file is 0: the prior partial download's
prefix is replaced by zero bytes, not preserved. -/
theorem c10_parallel_resume_zeroes_prefix :
    (∀ oldContent totalSize,
      prepareOutput oldContent totalSize = List.replicate totalSize 0) ∧
    (∀ downloaded chunk i, downloaded ≤ segStart downloaded chunk i) ∧
    (∀ idleTimeout start resp w, w ∈ (workerRun idleTimeout start resp).2 →
      start ≤ w.1) ∧
    (∀ totalSize downloaded ws, downloaded ≤ totalSize →
      (∀ w ∈ ws, downloaded ≤ w.1 ∧ w.1 + w.2.length ≤ totalSize) →
      ∀ i, i < downloaded →
        (applyWrites (List.replicate totalSize 0) ws).getD i 1 = 0) := by
  refine ⟨?_, ?_, ?_, ?_⟩
  · intro oldContent totalSize
    simp [prepareOutput, fileCreate, setLen]
  · intro downloaded chunk i
    simp [segStart]
  · intro idleTimeout start resp w hw
    rw [workerRun] at hw
    by_cases hs : resp.status = 206
    · rw [if_pos hs] at hw
      exact workerLoop_pos_le idleTimeout resp.chunks start w hw
    · rw [if_neg hs] at hw
      simp at hw
  · intro totalSize downloaded ws hdt hws i hid
    have hws2 : ∀ w ∈ ws, downloaded ≤ w.1 ∧ w.1 + w.2.length ≤
        (List.replicate totalSize (0 : Nat)).length := by
      intro w hw
      simpa using hws w hw
    rw [applyWrites_prefix_getD downloaded ws _ hws2 i hid,
      List.getD_eq_getElem?_getD, List.getElem?_replicate,
      if_pos (by omega : i < totalSize)]
    rfl

theorem c10_parallel_resume_zeroes_prefix_witness :
    ((3 : Nat) ≤ 6 ∧
      (∀ w ∈ [((3 : Nat), [7, 8]), ((5 : Nat), [9])],
        3 ≤ w.1 ∧ w.1 + w.2.length ≤ 6) ∧ (2 : Nat) < 3) ∧
    (applyWrites (List.replicate 6 0) [(3, [7, 8]), (5, [9])]).getD 2 1 = 0 :=
  ⟨⟨by decide, by decide, by decide⟩,
    c10_parallel_resume_zeroes_prefix.2.2.2 6 3 [(3, [7, 8]), (5, [9])]
      (by decide) (by decide) 2 (by decide)⟩

end Surf
